import Mathlib

/-!
# K-mer full-text parser plugin (`plugin_example.c`)

A shallow embedding of `add_word` and `simple_parser_parse` and of the
reduced amino-acid alphabet table built inside `add_word`.

Modelling conventions.

* A byte is a `Nat` below 256.  The document buffer `param->doc` of
  `param->length` bytes is a `List Nat`; the pointers `start`, `end` and
  `docend` are offsets into it.
* `word[i]` has type `char`.  Whether `char` is signed is fixed by the target,
  not by the source, so it is a field of `Env`.  A byte of 128 or more is a
  negative index where `char` is signed, and the read then leaves the table;
  what such a read finds is the field `stray` of `Env`.
* The host callback `param->mysql_add_word` is the field `mysql_add_word` of
  `Env`; the calls made to it are logged in `ParserState.emitted`.
* The `for (;;)` loop of `simple_parser_parse` runs on fuel; without fuel left
  the model yields `none`.  `parse_loop_trace` is the same loop with every pass
  through its body recorded.
* The counter `static long number_of_calls` is an `Int`; its range is not
  modelled.
-/

namespace PluginExample

/-- Window width, `#define K 10`. -/
def K : Nat := 10

/-- The assignments `translation_table[65] = 65; ... translation_table[89] = 89;`
of `add_word`, in source order, as (index, value) pairs. -/
def table_assignments : List (Nat × Nat) :=
  [(65, 65), (66, 68), (67, 67), (68, 68), (69, 68), (70, 89), (71, 71),
   (72, 72), (73, 76), (74, 88), (75, 82), (76, 76), (77, 76), (78, 68),
   (79, 88), (80, 80), (81, 68), (82, 82), (83, 65), (84, 65), (85, 88),
   (86, 76), (87, 87), (88, 88), (89, 89)]

/-- The local array `char translation_table[256] = {[0 ... 255] = 88}` after
the assignments that follow its declaration. -/
def translation_table : List Nat :=
  table_assignments.foldl (fun t p => t.set p.1 p.2) (List.replicate 256 88)

/-- What the code runs against: the target's `char` signedness, the memory
around the table, and the host's sink. -/
structure Env where
  /-- Whether plain `char` is a signed type. -/
  signedChar : Bool
  /-- The byte found by a read of `translation_table` at an index outside
  0..255. -/
  stray : Int → Nat
  /-- Status returned by the host's `mysql_add_word` for a word (its bytes)
  and a length. -/
  mysql_add_word : List Nat → Nat → Int

/-- The `int` value of a `char` holding byte `b`, as used for the subscript in
`translation_table[word[i]]`. -/
def charToInt (signedChar : Bool) (b : Nat) : Int :=
  if signedChar && decide (128 ≤ b) then (b : Int) - 256 else (b : Int)

/-- Read of `translation_table[idx]`. -/
def tableRead (env : Env) (idx : Int) : Nat :=
  match (if 0 ≤ idx then translation_table[idx.toNat]? else none) with
  | some v => v
  | none => env.stray idx

/-- The expression `translation_table[word[i]]` for a byte `b = word[i]`. -/
def lookup (env : Env) (b : Nat) : Nat :=
  tableRead env (charToInt env.signedChar b)

/-- One call `param->mysql_add_word(param, word, len, &bool_info)`: the offset
of `word` in the document, `len`, and the `len` bytes at `word` when the call
is made.  `bool_info` is the same constant in every call. -/
structure Token where
  start : Nat
  len : Nat
  bytes : List Nat
deriving DecidableEq, Repr

/-- The memory the parser works on: the document buffer, the log of sink
calls, and the global `number_of_calls`. -/
structure ParserState where
  doc : List Nat
  emitted : List Token
  number_of_calls : Int
deriving DecidableEq, Repr

/-- The loop `for (i = 0; i < len; i++) word[i] = translation_table[word[i]];`
with `word = doc + start`. -/
def translate_word (env : Env) (doc : List Nat) (start len : Nat) : List Nat :=
  (List.range len).foldl (fun buf i => buf.modify (lookup env) (start + i)) doc

/-- The function `add_word(param, word, len)` with `word = doc + start`: the
word is translated in place, then handed to `mysql_add_word`, whose return
value is dropped (`add_word` is `void`). -/
def add_word (env : Env) (st : ParserState) (start len : Nat) : ParserState :=
  let doc := translate_word env st.doc start len
  let word := (doc.drop start).take len
  let _status := env.mysql_add_word word len
  { st with doc := doc, emitted := st.emitted ++ [⟨start, len, word⟩] }

/-- The loop of `simple_parser_parse` from the top of an iteration, with
`start`, `end` and `docend` as offsets. -/
def parse_loop (env : Env) (docend : Nat) :
    Nat → Nat → Nat → ParserState → Option ParserState
  | 0, _, _, _ => none
  | fuel + 1, start, «end», st =>
    if «end» = docend then
      some (if «end» > start then add_word env st start («end» - start) else st)
    else if start + K = «end» then
      parse_loop env docend fuel (start + 1) («end» + 1)
        (add_word env st start («end» - start))
    else
      parse_loop env docend fuel start («end» + 1) st

/-- The function `simple_parser_parse(param)`: the returned `int` and the
memory afterwards. -/
def simple_parser_parse (env : Env) (fuel : Nat) (st : ParserState) :
    Option (Int × ParserState) :=
  let docend := st.doc.length
  let st1 := { st with number_of_calls := st.number_of_calls + 1 }
  match parse_loop env docend fuel 0 0 st1 with
  | some st2 => some (0, st2)
  | none => none

/-- The entry `translation_table[b]` for an index `b` inside the array (0 for
an index past its end, which no statement below uses). -/
def tableEntry (b : Nat) : Nat := translation_table.getD b 0

/-- The value `b` is a byte and the subscript computed from it lies within the
bounds of `translation_table`. -/
def InTable (env : Env) (b : Nat) : Prop :=
  b < 256 ∧ 0 ≤ charToInt env.signedChar b ∧ charToInt env.signedChar b < 256

instance (env : Env) (b : Nat) : Decidable (InTable env b) :=
  inferInstanceAs (Decidable (b < 256 ∧ 0 ≤ charToInt env.signedChar b ∧
    charToInt env.signedChar b < 256))

/-- Every byte of the document gives a subscript within the table: any byte
where `char` is unsigned, the bytes below 128 where it is signed. -/
def Indexable (env : Env) (doc : List Nat) : Prop := ∀ b ∈ doc, InTable env b

instance (env : Env) (doc : List Nat) : Decidable (Indexable env doc) :=
  inferInstanceAs (Decidable (∀ b ∈ doc, InTable env b))

/-- The eleven letters A C D G H L P R W X Y of the reduced alphabet. -/
def representatives : List Nat := [65, 67, 68, 71, 72, 76, 80, 82, 87, 88, 89]

/-- Arguments `(start, len)` of `n` successive full-width calls of `add_word`,
the first at offset `start`. -/
def kmerCalls (start : Nat) : Nat → List (Nat × Nat)
  | 0 => []
  | n + 1 => (start, K) :: kmerCalls (start + 1) n

/-- Arguments `(start, len)` of the calls of `add_word` still to come when the
loop stands at `start` in a document of `L` bytes. -/
def calls (start L : Nat) : List (Nat × Nat) :=
  if L < start + K then (if start < L then [(start, L - start)] else [])
  else kmerCalls start (L - (start + K) + 1)

/-- The calls `add_word(start, len)` of a list, made one after the other. -/
def runCalls (env : Env) (st : ParserState) (cs : List (Nat × Nat)) : ParserState :=
  cs.foldl (fun s c => add_word env s c.1 c.2) st

/-- The window of `len` bytes at offset `i` of a document. -/
def window (doc : List Nat) (i len : Nat) : List Nat := (doc.drop i).take len

/-- The tokens a document should produce: none for the empty document, the
translated document itself when it is shorter than `K`, else the translated
windows of width `K` at offsets 0, 1, ..., L-K. -/
def kmers (doc : List Nat) : List Token :=
  if doc.length < K then
    (if 0 < doc.length then [⟨0, doc.length, doc.map tableEntry⟩] else [])
  else
    (List.range (doc.length - K + 1)).map
      (fun i => ⟨i, K, (window doc i K).map tableEntry⟩)

/-- A document whose first `p` bytes have been replaced by their table
entries. -/
def translatedUpTo (p : Nat) (doc : List Nat) : List Nat :=
  (doc.take p).map tableEntry ++ doc.drop p

/-- One pass through the body of the `for (;;)` loop: the values of `start`
and `end` and the memory when the pass begins. -/
structure Iteration where
  start : Nat
  end_ : Nat
  st : ParserState

/-- The loop of `simple_parser_parse`, as `parse_loop`, which in addition
records every pass through its body. -/
def parse_loop_trace (env : Env) (docend : Nat) :
    Nat → Nat → Nat → ParserState → Option (ParserState × List Iteration)
  | 0, _, _, _ => none
  | fuel + 1, start, «end», st =>
    if «end» = docend then
      some (if «end» > start then add_word env st start («end» - start) else st,
        [⟨start, «end», st⟩])
    else if start + K = «end» then
      (parse_loop_trace env docend fuel (start + 1) («end» + 1)
        (add_word env st start («end» - start))).map
        (fun r => (r.1, ⟨start, «end», st⟩ :: r.2))
    else
      (parse_loop_trace env docend fuel start («end» + 1) st).map
        (fun r => (r.1, ⟨start, «end», st⟩ :: r.2))

/-- The function `simple_parser_parse(param)`, as `simple_parser_parse`, with
the passes through the loop recorded: the returned `int`, the memory
afterwards, and the passes in order. -/
def simple_parser_parse_trace (env : Env) (fuel : Nat) (st : ParserState) :
    Option (Int × ParserState × List Iteration) :=
  let docend := st.doc.length
  let st1 := { st with number_of_calls := st.number_of_calls + 1 }
  match parse_loop_trace env docend fuel 0 0 st1 with
  | some r => some (0, r.1, r.2)
  | none => none

/-- The variant of the loop of `simple_parser_parse` in which the test
`if (end > start)` is omitted: at `end == docend` it calls `add_word`
unconditionally. -/
def parse_loop_unguarded (env : Env) (docend : Nat) :
    Nat → Nat → Nat → ParserState → Option ParserState
  | 0, _, _, _ => none
  | fuel + 1, start, «end», st =>
    if «end» = docend then
      some (add_word env st start («end» - start))
    else if start + K = «end» then
      parse_loop_unguarded env docend fuel (start + 1) («end» + 1)
        (add_word env st start («end» - start))
    else
      parse_loop_unguarded env docend fuel start («end» + 1) st

/-- The function `simple_parser_parse` built on the loop without the test
`if (end > start)`. -/
def simple_parser_parse_unguarded (env : Env) (fuel : Nat) (st : ParserState) :
    Option (Int × ParserState) :=
  let docend := st.doc.length
  let st1 := { st with number_of_calls := st.number_of_calls + 1 }
  match parse_loop_unguarded env docend fuel 0 0 st1 with
  | some st2 => some (0, st2)
  | none => none

/-- ASCII codes of a string literal, for writing documents. -/
def bytesOf (s : String) : List Nat := s.toList.map Char.toNat

/-- The memory before a first parse of the document written as `s`: nothing
handed to the sink yet, `number_of_calls` still 0. -/
def stateOf (s : String) : ParserState := ⟨bytesOf s, [], 0⟩

/-- An environment with unsigned `char` and a sink that always reports 0. -/
def plainEnv : Env := ⟨false, fun _ => 0, fun _ _ => 0⟩

/-- An environment with signed `char`, as on x86 with GCC; reads outside the
table find 0 and the sink always reports 0. -/
def signedEnv : Env := ⟨true, fun _ => 0, fun _ _ => 0⟩

/-! ## The translation table -/

set_option maxRecDepth 100000 in
theorem translation_table_eq : translation_table =
    List.replicate 65 88 ++
      [65, 68, 67, 68, 68, 89, 71, 72, 76, 88, 82, 76, 76, 68, 88, 80, 68, 82,
       65, 65, 88, 76, 87, 88, 89] ++ List.replicate 166 88 := by
  decide

set_option maxRecDepth 100000 in
theorem translation_table_length : translation_table.length = 256 := by
  decide

theorem getElem?_translation_table {b : Nat} (hb : b < 256) :
    translation_table[b]? = some (tableEntry b) := by
  unfold tableEntry
  rw [List.getD_eq_getElem?_getD]
  have h : b < translation_table.length := by rw [translation_table_length]; exact hb
  rw [List.getElem?_eq_getElem h]; rfl

set_option maxRecDepth 100000 in
theorem tableEntry_facts : ∀ b, b < 256 →
    tableEntry b < 128 ∧ tableEntry (tableEntry b) = tableEntry b ∧
      tableEntry b ∈ representatives := by
  unfold tableEntry
  rw [translation_table_eq]
  decide

theorem inTable_lt {env : Env} {b : Nat} (h : InTable env b) : b < 256 := h.1

theorem lookup_eq_tableEntry {env : Env} {b : Nat} (h : InTable env b) :
    lookup env b = tableEntry b := by
  have hb := inTable_lt h
  unfold InTable at h
  unfold lookup tableRead
  have hc : charToInt env.signedChar b = (b : Int) := by
    unfold charToInt at h ⊢
    by_cases hs : (env.signedChar && decide (128 ≤ b)) = true
    · rw [if_pos hs] at h; omega
    · rw [if_neg hs]
  rw [hc]
  simp [getElem?_translation_table hb]

theorem inTable_tableEntry (env : Env) {b : Nat} (hb : b < 256) :
    InTable env (tableEntry b) := by
  have h := (tableEntry_facts b hb).1
  unfold InTable charToInt
  have : ¬ (128 ≤ tableEntry b) := by omega
  simp [this]
  omega

theorem lookup_tableEntry (env : Env) {b : Nat} (hb : b < 256) :
    lookup env (tableEntry b) = tableEntry b := by
  rw [lookup_eq_tableEntry (inTable_tableEntry env hb)]
  exact (tableEntry_facts b hb).2.1

/-! ## The translation loop of `add_word` -/

theorem translate_word_succ (env : Env) (doc : List Nat) (s n : Nat) :
    translate_word env doc s (n + 1) =
      (translate_word env doc s n).modify (lookup env) (s + n) := by
  unfold translate_word
  rw [List.range_succ, List.foldl_append]
  rfl

theorem length_translate_word (env : Env) (doc : List Nat) (s n : Nat) :
    (translate_word env doc s n).length = doc.length := by
  induction n with
  | zero => rfl
  | succ n ih => rw [translate_word_succ, List.length_modify, ih]

theorem getElem?_translate_word (env : Env) (doc : List Nat) (s n j : Nat) :
    (translate_word env doc s n)[j]? =
      if s ≤ j ∧ j < s + n then (doc[j]?).map (lookup env) else doc[j]? := by
  induction n with
  | zero =>
    have : ¬ (s ≤ j ∧ j < s + 0) := by omega
    rw [if_neg this]; rfl
  | succ n ih =>
    rw [translate_word_succ, List.getElem?_modify, ih]
    by_cases h1 : s + n = j
    · have h2 : ¬ (s ≤ j ∧ j < s + n) := by omega
      have h3 : s ≤ j ∧ j < s + (n + 1) := by omega
      rw [if_neg h2, if_pos h3]
      cases doc[j]? <;> simp [h1]
    · by_cases h2 : s ≤ j ∧ j < s + n
      · have h3 : s ≤ j ∧ j < s + (n + 1) := by omega
        rw [if_pos h2, if_pos h3]
        cases doc[j]? <;> simp [h1]
      · have h3 : ¬ (s ≤ j ∧ j < s + (n + 1)) := by omega
        rw [if_neg h2, if_neg h3]
        cases doc[j]? <;> simp [h1]

/-! ## Control flow of `simple_parser_parse` -/

theorem K_eq : K = 10 := rfl

theorem add_word_doc (env : Env) (st : ParserState) (s n : Nat) :
    (add_word env st s n).doc = translate_word env st.doc s n := rfl

theorem add_word_emitted (env : Env) (st : ParserState) (s n : Nat) :
    (add_word env st s n).emitted =
      st.emitted ++ [⟨s, n, window (translate_word env st.doc s n) s n⟩] := rfl

theorem add_word_number_of_calls (env : Env) (st : ParserState) (s n : Nat) :
    (add_word env st s n).number_of_calls = st.number_of_calls := rfl

theorem runCalls_nil (env : Env) (st : ParserState) : runCalls env st [] = st := rfl

theorem runCalls_cons (env : Env) (st : ParserState) (c : Nat × Nat)
    (cs : List (Nat × Nat)) :
    runCalls env st (c :: cs) = runCalls env (add_word env st c.1 c.2) cs := rfl

theorem calls_step (start L : Nat) (h : start + K < L) :
    calls start L = (start, K) :: calls (start + 1) L := by
  have hK := K_eq
  unfold calls
  rw [if_neg (by omega), if_neg (by omega)]
  have : L - (start + K) + 1 = (L - (start + 1 + K) + 1) + 1 := by omega
  rw [this]
  rfl

theorem calls_last (start L : Nat) (h : start + K = L) :
    calls start L = [(start, K)] := by
  unfold calls
  rw [if_neg (by omega)]
  have : L - (start + K) + 1 = 1 := by omega
  rw [this]
  rfl

theorem parse_loop_eq (env : Env) (L : Nat) :
    ∀ (fuel start e : Nat) (st : ParserState),
      e ≤ L → e ≤ start + K → L - e < fuel →
      parse_loop env L fuel start e st = some (runCalls env st (calls start L)) := by
  have hK := K_eq
  intro fuel
  induction fuel with
  | zero => intro _ _ _ _ _ h; omega
  | succ fuel ih =>
    intro start e st h1 h2 h3
    unfold parse_loop
    by_cases he : e = L
    · rw [if_pos he]
      subst he
      by_cases hlt : e < start + K
      · unfold calls
        rw [if_pos hlt]
        by_cases hs : e > start
        · rw [if_pos hs, if_pos hs]; rfl
        · rw [if_neg hs, if_neg hs]; rfl
      · have hek : start + K = e := by omega
        rw [calls_last start e hek, if_pos (by omega)]
        have : e - start = K := by omega
        rw [this, runCalls_cons, runCalls_nil]
    · rw [if_neg he]
      by_cases hk : start + K = e
      · rw [if_pos hk, ih (start + 1) (e + 1) _ (by omega) (by omega) (by omega)]
        rw [calls_step start L (by omega), runCalls_cons]
        have : e - start = K := by omega
        rw [this]
      · rw [if_neg hk, ih start (e + 1) st (by omega) (by omega) (by omega)]

theorem simple_parser_parse_eq (env : Env) (fuel : Nat) (st : ParserState)
    (hfuel : st.doc.length < fuel) :
    simple_parser_parse env fuel st =
      some (0, runCalls env { st with number_of_calls := st.number_of_calls + 1 }
        (calls 0 st.doc.length)) := by
  unfold simple_parser_parse
  simp only []
  rw [parse_loop_eq env st.doc.length fuel 0 0 _ (Nat.zero_le _) (Nat.zero_le _) (by omega)]

theorem runCalls_doc_length (env : Env) (cs : List (Nat × Nat)) :
    ∀ st : ParserState, (runCalls env st cs).doc.length = st.doc.length := by
  induction cs with
  | nil => intro st; rfl
  | cons c cs ih =>
    intro st
    rw [runCalls_cons, ih, add_word_doc, length_translate_word]

theorem length_window (doc : List Nat) (i len : Nat) :
    (window doc i len).length = min len (doc.length - i) := by
  unfold window
  rw [List.length_take, List.length_drop]

theorem runCalls_emitted (env : Env) (cs : List (Nat × Nat)) :
    ∀ st : ParserState, ∃ toks : List Token,
      (runCalls env st cs).emitted = st.emitted ++ toks ∧
      toks.map (fun t => (t.start, t.len)) = cs ∧
      ∀ t ∈ toks, t.bytes.length = min t.len (st.doc.length - t.start) := by
  induction cs with
  | nil => intro st; exact ⟨[], by simp [runCalls_nil], rfl, by simp⟩
  | cons c cs ih =>
    intro st
    obtain ⟨toks, h1, h2, h3⟩ := ih (add_word env st c.1 c.2)
    refine ⟨⟨c.1, c.2, window (translate_word env st.doc c.1 c.2) c.1 c.2⟩ :: toks, ?_, ?_, ?_⟩
    · rw [runCalls_cons, h1, add_word_emitted, List.append_assoc]; rfl
    · rw [List.map_cons, h2]
    · intro t ht
      rcases List.mem_cons.mp ht with rfl | ht
      · simp only [length_window, length_translate_word]
      · have := h3 t ht
        rw [add_word_doc, length_translate_word] at this
        exact this

/-! ## Contents of the buffer and of the tokens -/

theorem getElem?_window (doc : List Nat) (i len j : Nat) :
    (window doc i len)[j]? = if j < len then doc[i + j]? else none := by
  unfold window
  rw [List.getElem?_take, List.getElem?_drop]

theorem getElem?_translatedUpTo (p : Nat) (doc : List Nat) (j : Nat) :
    (translatedUpTo p doc)[j]? =
      if j < p then (doc[j]?).map tableEntry else doc[j]? := by
  unfold translatedUpTo
  by_cases hj : j < p
  · rw [if_pos hj]
    by_cases hl : j < doc.length
    · rw [List.getElem?_append_left (by simp; omega), List.getElem?_map,
        List.getElem?_take_of_lt hj]
    · rw [List.getElem?_append_right (by simp; omega), List.getElem?_drop,
        List.getElem?_eq_none (by simp; omega), List.getElem?_eq_none (by omega)]
      rfl
  · rw [if_neg hj, List.getElem?_append_right (by simp; omega), List.getElem?_drop]
    by_cases hl : j < doc.length
    · congr 1
      simp
      omega
    · rw [List.getElem?_eq_none (by simp; omega), List.getElem?_eq_none (by omega)]

theorem translatedUpTo_zero (doc : List Nat) : translatedUpTo 0 doc = doc := by
  simp [translatedUpTo]

theorem translatedUpTo_of_length_le {p : Nat} {doc : List Nat} (h : doc.length ≤ p) :
    translatedUpTo p doc = doc.map tableEntry := by
  unfold translatedUpTo
  rw [List.take_of_length_le h, List.drop_of_length_le h, List.append_nil]

theorem translate_word_translatedUpTo (env : Env) (doc : List Nat)
    (hdoc : Indexable env doc) (s n p : Nat) (h1 : s ≤ p) (h2 : p ≤ s + n) :
    translate_word env (translatedUpTo p doc) s n = translatedUpTo (s + n) doc := by
  apply List.ext_getElem?
  intro j
  rw [getElem?_translate_word, getElem?_translatedUpTo, getElem?_translatedUpTo]
  cases hd : doc[j]? with
  | none => simp
  | some b =>
    have hb : InTable env b := hdoc b (List.getElem?_mem hd)
    by_cases hw : s ≤ j ∧ j < s + n
    · rw [if_pos hw, if_pos hw.2]
      by_cases hp : j < p
      · rw [if_pos hp]
        simp [lookup_tableEntry env (inTable_lt hb)]
      · rw [if_neg hp]
        simp [lookup_eq_tableEntry hb]
    · rw [if_neg hw]
      by_cases hp : j < p
      · rw [if_pos hp, if_pos (by omega)]
      · rw [if_neg hp, if_neg (by omega)]

theorem window_translatedUpTo (doc : List Nat) (s n q : Nat) (h : s + n ≤ q) :
    window (translatedUpTo q doc) s n = (window doc s n).map tableEntry := by
  apply List.ext_getElem?
  intro j
  rw [List.getElem?_map, getElem?_window, getElem?_window, getElem?_translatedUpTo]
  by_cases hj : j < n
  · rw [if_pos hj, if_pos hj, if_pos (by omega)]
  · rw [if_neg hj, if_neg hj]; rfl

theorem add_word_translatedUpTo (env : Env) (doc : List Nat)
    (hdoc : Indexable env doc) (st : ParserState) (s n p : Nat)
    (hst : st.doc = translatedUpTo p doc) (h1 : s ≤ p) (h2 : p ≤ s + n) :
    add_word env st s n =
      { doc := translatedUpTo (s + n) doc,
        emitted := st.emitted ++ [⟨s, n, (window doc s n).map tableEntry⟩],
        number_of_calls := st.number_of_calls } := by
  have hd : (add_word env st s n).doc = translatedUpTo (s + n) doc := by
    rw [add_word_doc, hst, translate_word_translatedUpTo env doc hdoc s n p h1 h2]
  have he : (add_word env st s n).emitted =
      st.emitted ++ [⟨s, n, (window doc s n).map tableEntry⟩] := by
    rw [add_word_emitted, hst, translate_word_translatedUpTo env doc hdoc s n p h1 h2,
      window_translatedUpTo doc s n (s + n) (Nat.le_refl _)]
  have hn := add_word_number_of_calls env st s n
  cases hres : add_word env st s n with
  | mk d e c =>
    rw [hres] at hd he hn
    simp only at hd he hn
    rw [hd, he, hn]

theorem runCalls_kmerCalls (env : Env) (doc : List Nat) (hdoc : Indexable env doc) :
    ∀ (n s p : Nat) (st : ParserState), st.doc = translatedUpTo p doc → s ≤ p →
      p ≤ s + K →
      runCalls env st (kmerCalls s (n + 1)) =
        { doc := translatedUpTo (s + n + K) doc,
          emitted := st.emitted ++ (List.range' s (n + 1)).map
            (fun i => ⟨i, K, (window doc i K).map tableEntry⟩),
          number_of_calls := st.number_of_calls } := by
  have hK := K_eq
  intro n
  induction n with
  | zero =>
    intro s p st hst h1 h2
    show runCalls env st [(s, K)] = _
    rw [runCalls_cons, runCalls_nil, add_word_translatedUpTo env doc hdoc st s K p hst h1 h2]
    rfl
  | succ n ih =>
    intro s p st hst h1 h2
    show runCalls env st ((s, K) :: kmerCalls (s + 1) (n + 1)) = _
    rw [runCalls_cons, add_word_translatedUpTo env doc hdoc st s K p hst h1 h2,
      ih (s + 1) (s + K) _ rfl (by omega) (by omega)]
    have : s + 1 + n + K = s + (n + 1) + K := by omega
    rw [this]
    simp only [List.append_assoc, List.singleton_append]
    rfl

theorem runCalls_calls_indexable (env : Env) (st : ParserState)
    (hdoc : Indexable env st.doc) :
    runCalls env st (calls 0 st.doc.length) =
      { doc := st.doc.map tableEntry,
        emitted := st.emitted ++ kmers st.doc,
        number_of_calls := st.number_of_calls } := by
  have hK := K_eq
  unfold calls kmers
  by_cases hL : st.doc.length < K
  · rw [if_pos (by omega), if_pos hL]
    by_cases h0 : 0 < st.doc.length
    · rw [if_pos h0, if_pos h0, runCalls_cons, runCalls_nil]
      show add_word env st 0 (st.doc.length - 0) = _
      rw [add_word_translatedUpTo env st.doc hdoc st 0 _ 0 (translatedUpTo_zero _).symm
          (Nat.le_refl _) (Nat.zero_le _)]
      simp only [Nat.sub_zero, Nat.zero_add]
      rw [translatedUpTo_of_length_le (Nat.le_refl _)]
      simp [window]
    · rw [if_neg h0, if_neg h0, runCalls_nil]
      have hnil : st.doc = [] := List.eq_nil_of_length_eq_zero (by omega)
      cases st with
      | mk d e c =>
        simp only at hnil
        subst hnil
        simp
  · rw [if_neg (by omega), if_neg hL]
    have h1 : st.doc.length - (0 + K) + 1 = (st.doc.length - K) + 1 := by omega
    rw [h1, runCalls_kmerCalls env st.doc hdoc (st.doc.length - K) 0 0 st
      (translatedUpTo_zero _).symm (Nat.le_refl _) (Nat.zero_le _)]
    rw [translatedUpTo_of_length_le (by omega), List.range_eq_range']

theorem simple_parser_parse_indexable (env : Env) (fuel : Nat) (st : ParserState)
    (hdoc : Indexable env st.doc) (hfuel : st.doc.length < fuel) :
    simple_parser_parse env fuel st =
      some (0, { doc := st.doc.map tableEntry,
                 emitted := st.emitted ++ kmers st.doc,
                 number_of_calls := st.number_of_calls + 1 }) := by
  rw [simple_parser_parse_eq env fuel st hfuel]
  exact congrArg (fun s => some ((0 : Int), s))
    (runCalls_calls_indexable env { st with number_of_calls := st.number_of_calls + 1 } hdoc)

/-! ## Shape of the token list -/

theorem length_kmerCalls (n : Nat) : ∀ s, (kmerCalls s n).length = n := by
  induction n with
  | zero => intro s; rfl
  | succ n ih => intro s; show (kmerCalls (s + 1) n).length + 1 = n + 1; rw [ih]

theorem mem_kmerCalls (n : Nat) :
    ∀ s c, c ∈ kmerCalls s n → c.2 = K ∧ s ≤ c.1 ∧ c.1 < s + n := by
  induction n with
  | zero => intro s c h; cases h
  | succ n ih =>
    intro s c h
    rcases List.mem_cons.mp h with rfl | h
    · exact ⟨rfl, Nat.le_refl _, by omega⟩
    · have := ih (s + 1) c h
      exact ⟨this.1, by omega, by omega⟩

theorem length_kmers_of_le {doc : List Nat} (h : K ≤ doc.length) :
    (kmers doc).length = doc.length - K + 1 := by
  unfold kmers
  rw [if_neg (by omega), List.length_map, List.length_range]

theorem getElem?_kmers_of_le {doc : List Nat} (h : K ≤ doc.length) {i : Nat}
    (hi : i ≤ doc.length - K) :
    (kmers doc)[i]? = some ⟨i, K, (window doc i K).map tableEntry⟩ := by
  unfold kmers
  rw [if_neg (by omega), List.getElem?_map, List.getElem?_range (by omega)]
  rfl

/-- C1: a parse of a document of `L` bytes returns, and the sink is called
`L - K + 1` times with words of length `K` when `K ≤ L`, once with a word of
length `L` when `0 < L < K`, and never when `L = 0`.  This holds for every
document and every target. -/
theorem sink_call_count (env : Env) (fuel : Nat) (st : ParserState)
    (hfuel : st.doc.length < fuel) :
    ∃ st' toks, simple_parser_parse env fuel st = some (0, st') ∧
      st'.emitted = st.emitted ++ toks ∧
      (K ≤ st.doc.length →
        toks.length = st.doc.length - K + 1 ∧
          ∀ t ∈ toks, t.len = K ∧ t.bytes.length = K) ∧
      (0 < st.doc.length → st.doc.length < K →
        ∃ t, toks = [t] ∧ t.len = st.doc.length ∧ t.bytes.length = st.doc.length) ∧
      (st.doc.length = 0 → toks = []) := by
  have hK := K_eq
  obtain ⟨toks, h1, h2, h3⟩ := runCalls_emitted env (calls 0 st.doc.length)
    { st with number_of_calls := st.number_of_calls + 1 }
  refine ⟨_, toks, simple_parser_parse_eq env fuel st hfuel, h1, ?_, ?_, ?_⟩
  · intro hL
    have hc : calls 0 st.doc.length = kmerCalls 0 (st.doc.length - K + 1) := by
      unfold calls
      rw [if_neg (by omega)]
      congr 1
    rw [hc] at h2
    constructor
    · have := congrArg List.length h2
      rw [List.length_map, length_kmerCalls] at this
      exact this
    · intro t ht
      have hm : (t.start, t.len) ∈ kmerCalls 0 (st.doc.length - K + 1) := by
        rw [← h2]; exact List.mem_map_of_mem _ ht
      have hb := mem_kmerCalls _ 0 _ hm
      have hlen := h3 t ht
      simp only at hb hlen
      refine ⟨hb.1, ?_⟩
      rw [hlen, hb.1]
      omega
  · intro h0 hL
    have hc : calls 0 st.doc.length = [(0, st.doc.length)] := by
      unfold calls
      rw [if_pos (by omega), if_pos h0]
      rfl
    rw [hc] at h2
    cases toks with
    | nil => simp at h2
    | cons t rest =>
      cases rest with
      | cons u r => simp at h2
      | nil =>
        have hlen := h3 t (List.mem_singleton.mpr rfl)
        simp only [List.map_cons, List.map_nil, List.cons.injEq, Prod.mk.injEq,
          and_true] at h2
        refine ⟨t, rfl, h2.2, ?_⟩
        simp only at hlen
        rw [hlen, h2.1, h2.2]
        omega
  · intro h0
    have hc : calls 0 st.doc.length = [] := by
      unfold calls
      rw [if_pos (by omega), if_neg (by omega)]
    rw [hc] at h2
    exact List.map_eq_nil_iff.mp h2

set_option maxRecDepth 100000 in
/-- Witness for C1: the document "AAAAAAAAAA" of exactly `K` bytes gives one
call of the sink, with a word of `K` bytes. -/
theorem sink_call_count_witness :
    (stateOf "AAAAAAAAAA").doc.length < 11 ∧
    ∃ st' toks,
      simple_parser_parse plainEnv 11 (stateOf "AAAAAAAAAA") = some (0, st') ∧
      st'.emitted = toks ∧ toks.length = 1 ∧
      ∀ t ∈ toks, t.len = 10 ∧ t.bytes.length = 10 := by
  obtain ⟨st', toks, h1, h2, h3, _, _⟩ :=
    sink_call_count plainEnv 11 (stateOf "AAAAAAAAAA") (by decide)
  exact ⟨by decide, st', toks, h1, h2, (h3 (by decide)).1, (h3 (by decide)).2⟩

theorem map_eq_self_iff (f : Nat → Nat) (l : List Nat) :
    l.map f = l ↔ ∀ b ∈ l, f b = b := by
  induction l with
  | nil => simp
  | cons a l ih => simp [ih]

set_option maxRecDepth 100000 in
/-- C2 (as stated, refuted): the first token of "ABCDEFGHIJKLMNO" is
"ADCDDYGHLX", not "ACDDDYGHLX". -/
theorem first_token_not_ACDDDYGHLX :
    (simple_parser_parse plainEnv 16 (stateOf "ABCDEFGHIJKLMNO")).map
        (fun r => (r.2.emitted.map Token.bytes).head?) =
      some (some (bytesOf "ADCDDYGHLX")) ∧
    bytesOf "ADCDDYGHLX" ≠ bytesOf "ACDDDYGHLX" := by
  decide

/-- C2 (amended): for a document of `L ≥ K` bytes that all index inside the
table, the parse returns and hands the sink `L - K + 1` tokens, the `i`-th
being the table image of the original bytes `d[i], ..., d[i+K-1]`, in the
order of the offsets `i = 0, 1, ..., L - K`. -/
theorem tokens_are_translated_windows (env : Env) (fuel : Nat) (st : ParserState)
    (hdoc : Indexable env st.doc) (hfuel : st.doc.length < fuel)
    (hL : K ≤ st.doc.length) :
    ∃ st' toks, simple_parser_parse env fuel st = some (0, st') ∧
      st'.emitted = st.emitted ++ toks ∧
      toks.length = st.doc.length - K + 1 ∧
      ∀ i, i ≤ st.doc.length - K →
        toks[i]? = some ⟨i, K, (window st.doc i K).map tableEntry⟩ :=
  ⟨_, kmers st.doc, simple_parser_parse_indexable env fuel st hdoc hfuel, rfl,
    length_kmers_of_le hL, fun _ hi => getElem?_kmers_of_le hL hi⟩

set_option maxRecDepth 100000 in
/-- Witness for C2 (amended): "ABCDEFGHIJKLMNO" gives 6 tokens, the first
being "ADCDDYGHLX". -/
theorem tokens_are_translated_windows_witness :
    Indexable plainEnv (stateOf "ABCDEFGHIJKLMNO").doc ∧
    (stateOf "ABCDEFGHIJKLMNO").doc.length < 16 ∧
    K ≤ (stateOf "ABCDEFGHIJKLMNO").doc.length ∧
    ∃ st' toks,
      simple_parser_parse plainEnv 16 (stateOf "ABCDEFGHIJKLMNO") = some (0, st') ∧
      st'.emitted = toks ∧ toks.length = 6 ∧
      toks[0]? = some ⟨0, 10, bytesOf "ADCDDYGHLX"⟩ := by
  obtain ⟨st', toks, h1, h2, h3, h4⟩ :=
    tokens_are_translated_windows plainEnv 16 (stateOf "ABCDEFGHIJKLMNO")
      (by decide) (by decide) (by decide)
  refine ⟨by decide, by decide, by decide, st', toks, h1, h2, h3, ?_⟩
  rw [h4 0 (by decide)]
  decide

set_option maxRecDepth 100000 in
/-- C3 (evaluation): the table sends the letters A..Z to
"ADCDDYGHLXRLLDXPDRAAXLWXYX"; its entry for Z (90) is X (88), not D (68), and
`add_word` replaces a Z by that entry on every target. -/
theorem table_row_A_to_Z :
    (List.range' 65 26).map tableEntry = bytesOf "ADCDDYGHLXRLLDXPDRAAXLWXYX" ∧
    tableEntry 90 = 88 ∧ tableEntry 90 ≠ 68 ∧ ∀ env : Env, lookup env 90 = 88 := by
  have h90 : tableEntry 90 = 88 := by decide
  refine ⟨by decide, h90, by decide, fun env => ?_⟩
  have hin : InTable env 90 := by
    unfold InTable charToInt
    simp
  rw [lookup_eq_tableEntry hin, h90]

set_option maxRecDepth 100000 in
/-- C4 (as stated, refuted): parsing "AB" leaves "AD" in the document
buffer. -/
theorem parse_rewrites_document :
    (simple_parser_parse plainEnv 3 (stateOf "AB")).map (fun r => r.2.doc) =
      some (bytesOf "AD") ∧
    bytesOf "AD" ≠ (stateOf "AB").doc := by
  decide

/-- C4 (amended): a parse rewrites the document in place.  For a document
whose bytes all index inside the table, the buffer after the call holds at
each position the table entry of the byte that was there before; it is the
same as before exactly when every byte is its own table entry. -/
theorem document_after_parse (env : Env) (fuel : Nat) (st : ParserState)
    (hdoc : Indexable env st.doc) (hfuel : st.doc.length < fuel) :
    ∃ st', simple_parser_parse env fuel st = some (0, st') ∧
      st'.doc = st.doc.map tableEntry ∧
      (st'.doc = st.doc ↔ ∀ b ∈ st.doc, tableEntry b = b) := by
  refine ⟨_, simple_parser_parse_indexable env fuel st hdoc hfuel, rfl, ?_⟩
  exact map_eq_self_iff tableEntry st.doc

set_option maxRecDepth 100000 in
/-- Witness for C4 (amended): a parse of "ACDG", whose letters are their own
table entries, leaves the buffer as it was. -/
theorem document_after_parse_witness :
    Indexable plainEnv (stateOf "ACDG").doc ∧ (stateOf "ACDG").doc.length < 5 ∧
    ∃ st', simple_parser_parse plainEnv 5 (stateOf "ACDG") = some (0, st') ∧
      st'.doc = bytesOf "ACDG" := by
  obtain ⟨st', h1, _, h3⟩ :=
    document_after_parse plainEnv 5 (stateOf "ACDG") (by decide) (by decide)
  exact ⟨by decide, by decide, st', h1, h3.mpr (by decide)⟩

/-- C8: the table is idempotent on bytes, `T (T b) = T b` for every `b` in
0..255, and `add_word` applied to a byte that is already a table entry leaves
it as it is, on every target. -/
theorem translation_idempotent (b : Nat) (hb : b < 256) :
    tableEntry (tableEntry b) = tableEntry b ∧
    ∀ env : Env, lookup env (tableEntry b) = tableEntry b :=
  ⟨(tableEntry_facts b hb).2.1, fun env => lookup_tableEntry env hb⟩

set_option maxRecDepth 100000 in
/-- Witness for C8 at `F` (70), whose entry is `Y` (89). -/
theorem translation_idempotent_witness :
    70 < 256 ∧ tableEntry 70 = 89 ∧
    tableEntry (tableEntry 70) = tableEntry 70 ∧
    ∀ env : Env, lookup env (tableEntry 70) = tableEntry 70 :=
  ⟨by decide, by decide, translation_idempotent 70 (by decide)⟩

theorem parse_loop_trace_fst (env : Env) (L : Nat) :
    ∀ (fuel s e : Nat) (st : ParserState),
      (parse_loop_trace env L fuel s e st).map Prod.fst = parse_loop env L fuel s e st := by
  intro fuel
  induction fuel with
  | zero => intro s e st; rfl
  | succ fuel ih =>
    intro s e st
    unfold parse_loop_trace parse_loop
    by_cases he : e = L
    · rw [if_pos he, if_pos he]; rfl
    · rw [if_neg he, if_neg he]
      by_cases hk : s + K = e
      · rw [if_pos hk, if_pos hk, ← ih, Option.map_map]; rfl
      · rw [if_neg hk, if_neg hk, ← ih, Option.map_map]; rfl

theorem simple_parser_parse_trace_eq (env : Env) (fuel : Nat) (st : ParserState)
    (hfuel : st.doc.length < fuel) :
    ∃ tr, parse_loop_trace env st.doc.length fuel 0 0
        { st with number_of_calls := st.number_of_calls + 1 } =
        some (runCalls env { st with number_of_calls := st.number_of_calls + 1 }
          (calls 0 st.doc.length), tr) ∧
      simple_parser_parse_trace env fuel st =
        some (0, runCalls env { st with number_of_calls := st.number_of_calls + 1 }
          (calls 0 st.doc.length), tr) := by
  have h := parse_loop_trace_fst env st.doc.length fuel 0 0
    { st with number_of_calls := st.number_of_calls + 1 }
  rw [parse_loop_eq env st.doc.length fuel 0 0 _ (Nat.zero_le _) (Nat.zero_le _)
    (by omega)] at h
  cases hr : parse_loop_trace env st.doc.length fuel 0 0
      { st with number_of_calls := st.number_of_calls + 1 } with
  | none => rw [hr] at h; cases h
  | some r =>
    rw [hr] at h
    obtain ⟨fin, tr⟩ := r
    simp only [Option.map_some', Option.some.injEq] at h
    subst h
    refine ⟨tr, rfl, ?_⟩
    unfold simple_parser_parse_trace
    simp only []
    rw [hr]

theorem parse_loop_trace_invariant (env : Env) (L : Nat)
    (P : Nat → Nat → ParserState → Prop)
    (h1 : ∀ s e st, P s e st → e ≠ L → s + K = e →
      P (s + 1) (e + 1) (add_word env st s (e - s)))
    (h2 : ∀ s e st, P s e st → e ≠ L → s + K ≠ e → P s (e + 1) st) :
    ∀ (fuel s e : Nat) (st : ParserState), P s e st →
      ∀ r, parse_loop_trace env L fuel s e st = some r →
        ∀ it ∈ r.2, P it.start it.end_ it.st := by
  intro fuel
  induction fuel with
  | zero => intro s e st _ r hr; cases hr
  | succ fuel ih =>
    intro s e st hP r hr
    unfold parse_loop_trace at hr
    by_cases he : e = L
    · rw [if_pos he] at hr
      cases hr
      intro it hit
      rw [List.mem_singleton.mp hit]
      exact hP
    · rw [if_neg he] at hr
      by_cases hk : s + K = e
      · rw [if_pos hk] at hr
        cases hq : parse_loop_trace env L fuel (s + 1) (e + 1) (add_word env st s (e - s)) with
        | none => rw [hq] at hr; cases hr
        | some q =>
          rw [hq] at hr
          cases hr
          intro it hit
          rcases List.mem_cons.mp hit with rfl | hit
          · exact hP
          · exact ih _ _ _ (h1 s e st hP he hk) q hq it hit
      · rw [if_neg hk] at hr
        cases hq : parse_loop_trace env L fuel s (e + 1) st with
        | none => rw [hq] at hr; cases hr
        | some q =>
          rw [hq] at hr
          cases hr
          intro it hit
          rcases List.mem_cons.mp hit with rfl | hit
          · exact hP
          · exact ih _ _ _ (h2 s e st hP he hk) q hq it hit

theorem parse_loop_trace_ends (env : Env) (L : Nat) :
    ∀ (fuel s e : Nat) (st : ParserState), e ≤ L →
      ∀ r, parse_loop_trace env L fuel s e st = some r →
        r.2.map Iteration.end_ = List.range' e (L - e + 1) := by
  intro fuel
  induction fuel with
  | zero => intro s e st _ r hr; cases hr
  | succ fuel ih =>
    intro s e st hle r hr
    unfold parse_loop_trace at hr
    by_cases he : e = L
    · rw [if_pos he] at hr
      cases hr
      subst he
      simp
    · rw [if_neg he] at hr
      have hsplit : L - e + 1 = (L - (e + 1) + 1) + 1 := by omega
      by_cases hk : s + K = e
      · rw [if_pos hk] at hr
        cases hq : parse_loop_trace env L fuel (s + 1) (e + 1) (add_word env st s (e - s)) with
        | none => rw [hq] at hr; cases hr
        | some q =>
          rw [hq] at hr
          cases hr
          have := ih _ _ _ (by omega) q hq
          rw [hsplit, List.range'_succ]
          simp only [List.map_cons, this]
      · rw [if_neg hk] at hr
        cases hq : parse_loop_trace env L fuel s (e + 1) st with
        | none => rw [hq] at hr; cases hr
        | some q =>
          rw [hq] at hr
          cases hr
          have := ih _ _ _ (by omega) q hq
          rw [hsplit, List.range'_succ]
          simp only [List.map_cons, this]

theorem parse_loop_unguarded_eq (env : Env) (L : Nat) :
    ∀ (fuel s e : Nat) (st : ParserState), s < L → e ≤ L →
      parse_loop_unguarded env L fuel s e st = parse_loop env L fuel s e st := by
  have hK := K_eq
  intro fuel
  induction fuel with
  | zero => intro s e st _ _; rfl
  | succ fuel ih =>
    intro s e st hs hle
    unfold parse_loop_unguarded parse_loop
    by_cases he : e = L
    · rw [if_pos he, if_pos he, if_pos (by omega)]
    · rw [if_neg he, if_neg he]
      by_cases hk : s + K = e
      · rw [if_pos hk, if_pos hk]
        exact ih _ _ _ (by omega) (by omega)
      · rw [if_neg hk, if_neg hk]
        exact ih _ _ _ hs (by omega)

theorem mem_calls {L : Nat} {c : Nat × Nat} (h : c ∈ calls 0 L) :
    1 ≤ c.2 ∧ c.2 ≤ K ∧ c.1 + c.2 ≤ L := by
  have hK := K_eq
  unfold calls at h
  by_cases hL : L < 0 + K
  · rw [if_pos hL] at h
    by_cases h0 : 0 < L
    · rw [if_pos h0] at h
      rw [List.mem_singleton.mp h]
      simp only
      omega
    · rw [if_neg h0] at h; cases h
  · rw [if_neg hL] at h
    have := mem_kmerCalls _ 0 c h
    omega

/-! ## The claims on the counter, the subscript, the guard and the loop -/

set_option maxRecDepth 100000 in
/-- C12 (evaluation): where `char` is signed the byte 200 is used as the
subscript -56, which is outside the table, so `add_word` stores whatever lies
there; the one-byte document 200 then gives a token that is not `X`.  Where
`char` is unsigned the same byte is the subscript 200 and gives `X`. -/
theorem signed_char_subscript_outside_table :
    charToInt true 200 = -56 ∧ ¬ InTable signedEnv 200 ∧
    (∀ (stray : Int → Nat) (sink : List Nat → Nat → Int),
      lookup ⟨true, stray, sink⟩ 200 = stray (-56)) ∧
    (simple_parser_parse signedEnv 2 ⟨[200], [], 0⟩).map (fun r => r.2.emitted) =
      some [⟨0, 1, [0]⟩] ∧
    charToInt false 200 = 200 ∧ InTable plainEnv 200 ∧ lookup plainEnv 200 = 88 := by
  refine ⟨by decide, by decide, fun stray sink => ?_, by decide, by decide, by decide,
    by decide⟩
  rfl

set_option maxRecDepth 100000 in
/-- C13 (as stated, refuted): on the empty document the loop with the guard
never calls the sink, the loop without it calls the sink once, with an empty
word of length 0. -/
theorem unguarded_differs_on_empty_document :
    (simple_parser_parse plainEnv 1 (stateOf "")).map (fun r => r.2.emitted) = some [] ∧
    (simple_parser_parse_unguarded plainEnv 1 (stateOf "")).map (fun r => r.2.emitted) =
      some [⟨0, 0, []⟩] := by
  decide

/-- C13 (amended): for every document of length `L > 0` the loop without the
test `if (end > start)` returns the same result, with the same sequence of
sink calls, as the loop with it; for `L = 0` the loop with the test makes no
sink call and the loop without it makes one, with a word of length 0. -/
theorem unguarded_same_on_nonempty_document (env : Env) (fuel : Nat) (st : ParserState)
    (hfuel : st.doc.length < fuel) :
    (0 < st.doc.length →
      ∃ st', simple_parser_parse env fuel st = some (0, st') ∧
        simple_parser_parse_unguarded env fuel st = some (0, st')) ∧
    (st.doc.length = 0 →
      simple_parser_parse env fuel st =
        some (0, { st with number_of_calls := st.number_of_calls + 1 }) ∧
      simple_parser_parse_unguarded env fuel st =
        some (0, { st with number_of_calls := st.number_of_calls + 1,
                           emitted := st.emitted ++ [⟨0, 0, []⟩] })) := by
  constructor
  · intro h0
    refine ⟨_, simple_parser_parse_eq env fuel st hfuel, ?_⟩
    rw [← simple_parser_parse_eq env fuel st hfuel]
    unfold simple_parser_parse_unguarded simple_parser_parse
    simp only []
    rw [parse_loop_unguarded_eq env st.doc.length fuel 0 0 _ h0 (Nat.zero_le _)]
  · intro h0
    have hnil : st.doc = [] := List.eq_nil_of_length_eq_zero h0
    cases fuel with
    | zero => omega
    | succ n =>
      unfold simple_parser_parse_unguarded simple_parser_parse
      simp only []
      unfold parse_loop_unguarded parse_loop
      rw [h0]
      simp [add_word, translate_word, hnil]

set_option maxRecDepth 100000 in
/-- Witness for C13 (amended): on "AB" both loops hand the sink the one word
"AD". -/
theorem unguarded_same_on_nonempty_document_witness :
    (stateOf "AB").doc.length < 3 ∧ 0 < (stateOf "AB").doc.length ∧
    ∃ st', simple_parser_parse plainEnv 3 (stateOf "AB") = some (0, st') ∧
      simple_parser_parse_unguarded plainEnv 3 (stateOf "AB") = some (0, st') :=
  ⟨by decide, by decide,
    (unguarded_same_on_nonempty_document plainEnv 3 (stateOf "AB") (by decide)).1
      (by decide)⟩

/-- C15: every call `add_word(start, len)` made by a parse of a document of
`L` bytes has `1 ≤ len ≤ K` and `start + len ≤ L`, and at every pass through
the loop `start ≤ end`, `end - start ≤ K` and `end ≤ L`. -/
theorem add_word_calls_within_document (env : Env) (fuel : Nat) (st : ParserState)
    (hfuel : st.doc.length < fuel) :
    ∃ st' tr toks, simple_parser_parse_trace env fuel st = some (0, st', tr) ∧
      simple_parser_parse env fuel st = some (0, st') ∧
      st'.emitted = st.emitted ++ toks ∧
      (∀ t ∈ toks, 0 ≤ t.start ∧ 1 ≤ t.len ∧ t.len ≤ K ∧
        t.start + t.len ≤ st.doc.length) ∧
      (∀ it ∈ tr, it.start ≤ it.end_ ∧ it.end_ - it.start ≤ K ∧
        it.end_ ≤ st.doc.length) := by
  obtain ⟨tr, hloop, htr⟩ := simple_parser_parse_trace_eq env fuel st hfuel
  obtain ⟨toks, h1, h2, _⟩ := runCalls_emitted env (calls 0 st.doc.length)
    { st with number_of_calls := st.number_of_calls + 1 }
  refine ⟨_, tr, toks, htr, simple_parser_parse_eq env fuel st hfuel, h1, ?_, ?_⟩
  · intro t ht
    have hm : (t.start, t.len) ∈ calls 0 st.doc.length := by
      rw [← h2]; exact List.mem_map_of_mem _ ht
    have := mem_calls hm
    exact ⟨Nat.zero_le _, this.1, this.2.1, this.2.2⟩
  · intro it hit
    have hinv := parse_loop_trace_invariant env st.doc.length
      (fun s e _ => s ≤ e ∧ e ≤ s + K ∧ e ≤ st.doc.length)
      (fun s e _ hP he hk => ⟨by omega, by omega, by omega⟩)
      (fun s e _ hP he hk => ⟨by omega, by omega, by omega⟩)
      fuel 0 0 _ ⟨Nat.le_refl _, Nat.zero_le _, Nat.zero_le _⟩ _ hloop it hit
    simp only at hinv
    exact ⟨hinv.1, by omega, hinv.2.2⟩

set_option maxRecDepth 100000 in
/-- Witness for C15 on the document "ABCDEFGHIJKLMNO". -/
theorem add_word_calls_within_document_witness :
    (stateOf "ABCDEFGHIJKLMNO").doc.length < 16 ∧
    ∃ st' tr toks,
      simple_parser_parse_trace plainEnv 16 (stateOf "ABCDEFGHIJKLMNO") =
        some (0, st', tr) ∧
      simple_parser_parse plainEnv 16 (stateOf "ABCDEFGHIJKLMNO") = some (0, st') ∧
      st'.emitted = (stateOf "ABCDEFGHIJKLMNO").emitted ++ toks ∧
      (∀ t ∈ toks, 0 ≤ t.start ∧ 1 ≤ t.len ∧ t.len ≤ K ∧
        t.start + t.len ≤ (stateOf "ABCDEFGHIJKLMNO").doc.length) ∧
      (∀ it ∈ tr, it.start ≤ it.end_ ∧ it.end_ - it.start ≤ K ∧
        it.end_ ≤ (stateOf "ABCDEFGHIJKLMNO").doc.length) :=
  ⟨by decide,
    add_word_calls_within_document plainEnv 16 (stateOf "ABCDEFGHIJKLMNO") (by decide)⟩

/-- C17: for every document length `L` the loop of `simple_parser_parse` comes
to an end: `end` takes the values 0, 1, ..., L in `L + 1` passes, the last of
which, with `end = docend`, leaves the loop, and the function returns 0. -/
theorem loop_terminates (env : Env) (fuel : Nat) (st : ParserState)
    (hfuel : st.doc.length < fuel) :
    ∃ st' tr, simple_parser_parse_trace env fuel st = some (0, st', tr) ∧
      simple_parser_parse env fuel st = some (0, st') ∧
      tr.map Iteration.end_ = List.range (st.doc.length + 1) ∧
      tr.length = st.doc.length + 1 ∧
      (tr.map Iteration.end_).getLast? = some st.doc.length := by
  obtain ⟨tr, hloop, htr⟩ := simple_parser_parse_trace_eq env fuel st hfuel
  have hends := parse_loop_trace_ends env st.doc.length fuel 0 0 _ (Nat.zero_le _) _ hloop
  simp only [Nat.sub_zero] at hends
  rw [← List.range_eq_range'] at hends
  refine ⟨_, tr, htr, simple_parser_parse_eq env fuel st hfuel, hends, ?_, ?_⟩
  · have := congrArg List.length hends
    rw [List.length_map, List.length_range] at this
    exact this
  · rw [hends, List.range_succ]
    simp

set_option maxRecDepth 100000 in
/-- Witness for C17: the parse of "AB" makes 3 passes, with `end` = 0, 1, 2. -/
theorem loop_terminates_witness :
    (stateOf "AB").doc.length < 3 ∧
    ∃ st' tr, simple_parser_parse_trace plainEnv 3 (stateOf "AB") = some (0, st', tr) ∧
      simple_parser_parse plainEnv 3 (stateOf "AB") = some (0, st') ∧
      tr.map Iteration.end_ = [0, 1, 2] ∧ tr.length = 3 := by
  obtain ⟨st', tr, h1, h2, h3, h4, _⟩ := loop_terminates plainEnv 3 (stateOf "AB") (by decide)
  exact ⟨by decide, st', tr, h1, h2, h3, h4⟩

end PluginExample
